import Mathlib

/-!
Verification of the fuse/lock-bit decode engine of `owfmodules.avrisp.read_fuses`
(`ReadFuses.parse_fuse`, `ReadFuses.count_trailing_zero`) and of the SPI command
traffic of `ReadFuses.read_fuses` / `ReadFuses.read_lockbits`.

Shallow embedding conventions:
- The per-device field table is a Python dict of dicts whose `mask` and enumerated
  `value` entries are hexadecimal strings parsed with `int(s, 16)` on use.  The
  embedding carries the parsed numeric values (`Nat`) directly; `mask` echoed into
  the output and the emitted `value` of an enumerated field are therefore the
  numeric values of those strings.
- Python dicts are ordered (insertion order); they are embedded as association
  lists.  Key uniqueness of a dict appears as a `Nodup` hypothesis where needed.
- `self.logger.handle(..., ERROR)` calls are modelled as a warnings list returned
  alongside the result.
- `count_trailing_zero` is a `while` loop that never terminates on input `0`;
  it is embedded with an explicit fuel argument, `none` meaning the loop has not
  reached a set bit within `fuel` probes.  The call sites pass `fuel = x` on
  input `x`: since `x < 2 ^ x`, this fuel is sufficient for every non-zero input
  (proved below), and for `x = 0` the result is `none` for every fuel, so `none`
  at a call site models exactly the non-termination of the source loop.
- `parse_fuse` consequently returns an `Option`: `none` models a call that never
  returns.
-/

/-- One entry of an enumerated field's `values` dict: the parsed numeric code
(`int(descr["value"], 16)`) and the human-readable `caption`. -/
structure EnumEntry where
  value : Nat
  caption : String
  deriving DecidableEq, Repr

/-- One row of a device fuse/lock-bit table: parsed `mask`, the row `caption`,
and the ordered `values` enumeration (empty list = single-bit convention). -/
structure FieldSpec where
  mask : Nat
  caption : String
  values : List EnumEntry
  deriving DecidableEq, Repr

/-- The per-device table `fuse_dict`: an ordered mapping field name to spec. -/
abbrev FieldTable := List (String × FieldSpec)

/-- One output row of `parse_fuse`: the dict
`{"descr": ..., "value_descr": ..., "value": ..., "mask": ...}`. -/
structure DecodedField where
  descr : String
  value_descr : String
  value : Nat
  mask : Nat
  deriving DecidableEq, Repr

/-- `ReadFuses.count_trailing_zero`: the loop `while (x & 1) == 0: x >>= 1; count += 1`,
with explicit fuel; `none` models the loop not returning within `fuel` probes
(on input `0` the source loop never returns). -/
def count_trailing_zero : Nat → Nat → Option Nat
  | 0, _ => none
  | fuel + 1, x =>
    if x &&& 1 = 0 then (count_trailing_zero fuel (x >>> 1)).map (· + 1)
    else some 0

/-- Python `hex(n)` for a natural number: `0x` followed by lowercase hex digits. -/
def pyHex (n : Nat) : String :=
  "0x" ++ String.mk (Nat.toDigits 16 n)

/-- The inner `for name, descr in values.items(): if int(descr["value"], 16) == code: ... break`
loop: first entry whose numeric code equals `code`, in declared order. -/
def findValue (code : Nat) : List EnumEntry → Option EnumEntry
  | [] => none
  | e :: rest => if e.value = code then some e else findValue code rest

/-- The body of `parse_fuse`'s loop for a single field `(fuse_name, fs)` on raw byte
`fuse_value`: `some (emitted output row or none, logged warning or none)`, or `none`
when the call to `count_trailing_zero` never returns (enumerated field, `mask = 0`).
`result = fuse_value &&& fs.mask` is inlined. -/
def parseFuseStep (fuse_value : Nat) (fuse_name : String) (fs : FieldSpec) :
    Option (Option DecodedField × Option String) :=
  if 0 < fs.values.length then
    match count_trailing_zero fs.mask fs.mask with
    | none => none
    | some trailing_zero =>
      match findValue ((fuse_value &&& fs.mask) >>> trailing_zero) fs.values with
      | some descr => some (some ⟨fs.caption, descr.caption, descr.value, fs.mask⟩, none)
      | none => some (none, some ("Invalid value for " ++ fuse_name ++ " ==> got: " ++
          pyHex ((fuse_value &&& fs.mask) >>> trailing_zero)))
  else
    if (fuse_value &&& fs.mask) &&& fs.mask = fs.mask then
      some (some ⟨fs.caption, "Unprogrammed", 1, fs.mask⟩, none)
    else
      some (some ⟨fs.caption, "Programmed", 0, fs.mask⟩, none)

/-- `ReadFuses.parse_fuse`: fold the step over the table in declared order, collecting
the output mapping (insertion order) and the logged warnings; `none` models a call
that never returns. -/
def parse_fuse : FieldTable → Nat → Option (List (String × DecodedField) × List String)
  | [], _ => some ([], [])
  | (fuse_name, fs) :: rest, fuse_value =>
    match parseFuseStep fuse_value fuse_name fs, parse_fuse rest fuse_value with
    | some (odf, ow), some (out, warns) =>
      some ((odf.toList.map fun df => (fuse_name, df)) ++ out, ow.toList ++ warns)
    | _, _ => none

/-- Dict lookup in the output mapping (keys are unique in the Python dict). -/
def lookupField (name : String) : List (String × DecodedField) → Option DecodedField
  | [] => none
  | (n, df) :: rest => if n = name then some df else lookupField name rest

/-- The spec's table invariant, restricted to what `parse_fuse` needs to return at
all: every enumerated field has a non-zero mask. -/
abbrev WF (t : FieldTable) : Prop :=
  ∀ p ∈ t, p.2.values ≠ [] → p.2.mask ≠ 0

/-- Field names of a table, in declared order. -/
abbrev tableNames (t : FieldTable) : List String := t.map Prod.fst

/-! ### Basic lemmas about `count_trailing_zero` -/

theorem count_trailing_zero_zero (fuel : Nat) : count_trailing_zero fuel 0 = none := by
  induction fuel with
  | zero => rfl
  | succ n ih =>
    simp [count_trailing_zero, Nat.zero_and, Nat.zero_shiftRight, ih]

theorem count_trailing_zero_isSome :
    ∀ (fuel x : Nat), x ≠ 0 → x < 2 ^ fuel → (count_trailing_zero fuel x).isSome := by
  intro fuel
  induction fuel with
  | zero =>
    intro x hx h
    simp only [pow_zero, Nat.lt_one_iff] at h
    exact absurd h hx
  | succ n ih =>
    intro x hx h
    rw [count_trailing_zero]
    by_cases he : x &&& 1 = 0
    · rw [if_pos he]
      have hmod : x % 2 = 0 := by rw [← Nat.and_one_is_mod]; exact he
      have hx2 : x >>> 1 ≠ 0 := by
        rw [Nat.shiftRight_one]
        omega
      have hlt : x >>> 1 < 2 ^ n := by
        rw [Nat.shiftRight_one]
        have hp : 2 ^ (n + 1) = 2 ^ n * 2 := pow_succ 2 n
        omega
      have := ih (x >>> 1) hx2 hlt
      cases hrec : count_trailing_zero n (x >>> 1) with
      | none => rw [hrec] at this; exact absurd this (by simp)
      | some c => rfl
    · rw [if_neg he]; rfl

/-! ### Lemmas about `findValue` -/

theorem findValue_none (code : Nat) (vs : List EnumEntry)
    (h : ∀ e ∈ vs, e.value ≠ code) : findValue code vs = none := by
  induction vs with
  | nil => rfl
  | cons e rest ih =>
    rw [findValue, if_neg (h e (List.mem_cons_self e rest))]
    exact ih fun e2 h2 => h e2 (List.mem_cons_of_mem e h2)

theorem findValue_first (code : Nat) (pre post : List EnumEntry) (e : EnumEntry)
    (hpre : ∀ e2 ∈ pre, e2.value ≠ code) (he : e.value = code) :
    findValue code (pre ++ e :: post) = some e := by
  induction pre with
  | nil => rw [List.nil_append, findValue, if_pos he]
  | cons p rest ih =>
    rw [List.cons_append, findValue, if_neg (hpre p (List.mem_cons_self p rest))]
    exact ih fun e2 h2 => hpre e2 (List.mem_cons_of_mem p h2)

theorem findValue_exists (code : Nat) (vs : List EnumEntry)
    (h : ∃ e ∈ vs, e.value = code) :
    ∃ e, findValue code vs = some e ∧ e ∈ vs ∧ e.value = code := by
  induction vs with
  | nil => obtain ⟨e, he, _⟩ := h; exact absurd he (List.not_mem_nil e)
  | cons p rest ih =>
    by_cases hp : p.value = code
    · exact ⟨p, by rw [findValue, if_pos hp], List.mem_cons_self p rest, hp⟩
    · obtain ⟨e, he, hev⟩ := h
      rcases List.mem_cons.mp he with rfl | hmem
      · exact absurd hev hp
      · obtain ⟨e2, hf, hm, hv⟩ := ih ⟨e, hmem, hev⟩
        exact ⟨e2, by rw [findValue, if_neg hp]; exact hf, List.mem_cons_of_mem p hm, hv⟩

/-! ### Totality of the step and of `parse_fuse` on well-formed tables -/

theorem parseFuseStep_isSome (fuse_value : Nat) (fuse_name : String) (fs : FieldSpec)
    (h : fs.values ≠ [] → fs.mask ≠ 0) : (parseFuseStep fuse_value fuse_name fs).isSome := by
  rw [parseFuseStep]
  by_cases hv : 0 < fs.values.length
  · rw [if_pos hv]
    have hm : fs.mask ≠ 0 := h (List.ne_nil_of_length_pos hv)
    have hsome := count_trailing_zero_isSome fs.mask fs.mask hm (Nat.lt_two_pow fs.mask)
    split
    · next heq => rw [heq] at hsome; exact absurd hsome (by simp)
    · split <;> rfl
  · rw [if_neg hv]
    by_cases hr : (fuse_value &&& fs.mask) &&& fs.mask = fs.mask
    · rw [if_pos hr]; rfl
    · rw [if_neg hr]; rfl

theorem parse_fuse_isSome (t : FieldTable) (b : Nat) (hwf : WF t) :
    (parse_fuse t b).isSome := by
  induction t with
  | nil => rfl
  | cons hd tl ih =>
    obtain ⟨name, fs⟩ := hd
    have hstep := parseFuseStep_isSome b name fs (hwf (name, fs) (List.mem_cons_self _ tl))
    have htl : (parse_fuse tl b).isSome :=
      ih fun p hp => hwf p (List.mem_cons_of_mem _ hp)
    rw [parse_fuse]
    cases hs : parseFuseStep b name fs with
    | none => rw [hs] at hstep; exact absurd hstep (by simp)
    | some pr =>
      obtain ⟨odf, ow⟩ := pr
      cases ht : parse_fuse tl b with
      | none => rw [ht] at htl; exact absurd htl (by simp)
      | some pr2 => obtain ⟨out, warns⟩ := pr2; rfl

/-! ### Decomposition of `parse_fuse` over appended tables -/

theorem parse_fuse_append (t1 t2 : FieldTable) (b : Nat) :
    parse_fuse (t1 ++ t2) b =
      match parse_fuse t1 b, parse_fuse t2 b with
      | some (o1, w1), some (o2, w2) => some (o1 ++ o2, w1 ++ w2)
      | _, _ => none := by
  induction t1 with
  | nil =>
    rw [List.nil_append]
    show parse_fuse t2 b = _
    rw [parse_fuse]
    cases parse_fuse t2 b with
    | none => rfl
    | some pr => obtain ⟨o2, w2⟩ := pr; simp
  | cons hd tl ih =>
    obtain ⟨name, fs⟩ := hd
    rw [List.cons_append, parse_fuse]
    conv_rhs => rw [parse_fuse]
    cases hs : parseFuseStep b name fs with
    | none => rfl
    | some pr =>
      obtain ⟨odf, ow⟩ := pr
      rw [ih]
      cases h1 : parse_fuse tl b with
      | none =>
        cases parse_fuse t2 b with
        | none => rfl
        | some pr2 => obtain ⟨o2, w2⟩ := pr2; rfl
      | some pr1 =>
        obtain ⟨o1, w1⟩ := pr1
        cases parse_fuse t2 b with
        | none => rfl
        | some pr2 =>
          obtain ⟨o2, w2⟩ := pr2
          simp [List.append_assoc]

/-! ### Output keys come from the table, and lookup over appended outputs -/

theorem parse_fuse_keys (t : FieldTable) (b : Nat) (o : List (String × DecodedField))
    (w : List String) (h : parse_fuse t b = some (o, w)) :
    ∀ p ∈ o, p.1 ∈ tableNames t := by
  induction t generalizing o w with
  | nil =>
    rw [parse_fuse] at h
    injection h with h2
    injection h2 with ho hw
    subst ho
    intro p hp
    exact absurd hp (List.not_mem_nil p)
  | cons hd tl ih =>
    obtain ⟨name, fs⟩ := hd
    rw [parse_fuse] at h
    cases hs : parseFuseStep b name fs with
    | none => simp only [hs] at h; exact Option.noConfusion h
    | some pr =>
      obtain ⟨odf, ow⟩ := pr
      cases ht : parse_fuse tl b with
      | none => simp only [hs, ht] at h; exact Option.noConfusion h
      | some pr2 =>
        obtain ⟨out, warns⟩ := pr2
        simp only [hs, ht, Option.some_inj, Prod.mk.injEq] at h
        obtain ⟨ho, hw⟩ := h
        intro p hp
        rw [← ho] at hp
        rcases List.mem_append.mp hp with hl | hr
        · cases odf with
          | none => exact absurd hl (by simp)
          | some df =>
            have hpn : p = (name, df) := by simpa using hl
            rw [hpn]
            exact List.mem_cons_self _ _
        · exact List.mem_cons_of_mem _ (ih out warns ht p hr)

theorem lookupField_skip (name : String) (o1 o2 : List (String × DecodedField))
    (h : ∀ p ∈ o1, p.1 ≠ name) :
    lookupField name (o1 ++ o2) = lookupField name o2 := by
  induction o1 with
  | nil => rw [List.nil_append]
  | cons p rest ih =>
    obtain ⟨n, df⟩ := p
    rw [List.cons_append, lookupField, if_neg (h (n, df) (List.mem_cons_self _ rest))]
    exact ih fun q hq => h q (List.mem_cons_of_mem _ hq)

theorem lookupField_none (name : String) (o : List (String × DecodedField))
    (h : ∀ p ∈ o, p.1 ≠ name) : lookupField name o = none := by
  induction o with
  | nil => rfl
  | cons p rest ih =>
    obtain ⟨n, df⟩ := p
    rw [lookupField, if_neg (h (n, df) (List.mem_cons_self _ rest))]
    exact ih fun q hq => h q (List.mem_cons_of_mem _ hq)

theorem parse_fuse_split (b : Nat) (t1 t2 : FieldTable) (name : String) (fs : FieldSpec)
    (o1 o2 : List (String × DecodedField)) (w1 w2 : List String)
    (odf : Option DecodedField) (ow : Option String)
    (h1 : parse_fuse t1 b = some (o1, w1))
    (h2 : parse_fuse t2 b = some (o2, w2))
    (hstep : parseFuseStep b name fs = some (odf, ow)) :
    parse_fuse (t1 ++ (name, fs) :: t2) b =
      some (o1 ++ ((odf.toList.map fun df => (name, df)) ++ o2), w1 ++ (ow.toList ++ w2)) := by
  have hc : parse_fuse ((name, fs) :: t2) b =
      some ((odf.toList.map fun df => (name, df)) ++ o2, ow.toList ++ w2) := by
    rw [parse_fuse]
    simp only [hstep, h2]
  rw [parse_fuse_append, h1, hc]

theorem wf_split (t1 t2 : FieldTable) (x : String × FieldSpec)
    (hwf : WF (t1 ++ x :: t2)) : WF t1 ∧ WF t2 :=
  ⟨fun p hp => hwf p (List.mem_append_left _ hp),
   fun p hp => hwf p (List.mem_append_right _ (List.mem_cons_of_mem x hp))⟩

theorem nodup_split_not_mem (t1 t2 : FieldTable) (name : String) (fs : FieldSpec)
    (hnd : (tableNames (t1 ++ (name, fs) :: t2)).Nodup) :
    name ∉ tableNames t1 ∧ name ∉ tableNames t2 := by
  have hnd2 : (tableNames t1 ++ name :: tableNames t2).Nodup := by
    simpa [tableNames] using hnd
  obtain ⟨h1, h2, hdisj⟩ := List.nodup_append.mp hnd2
  exact ⟨fun hmem => hdisj hmem (List.mem_cons_self _ _), (List.nodup_cons.mp h2).1⟩

theorem parse_fuse_eq_some (t : FieldTable) (b : Nat) (hwf : WF t) :
    ∃ o w, parse_fuse t b = some (o, w) := by
  have hs := parse_fuse_isSome t b hwf
  cases h : parse_fuse t b with
  | none => rw [h] at hs; exact absurd hs (by simp)
  | some pr => exact ⟨pr.1, pr.2, rfl⟩

theorem and_mask_twice (b m : Nat) : (b &&& m) &&& m = b &&& m := by
  rw [Nat.and_assoc, Nat.and_self]

/-! ### Per-claim theorems -/

/-- C1: for every raw byte `b` and every enumerated FieldSpec in the table with
non-zero mask `m`, if `(b &&& m) >>> count_trailing_zero m` equals the code of some
declared entry, then `parse_fuse` succeeds and its result maps the field name to a
DecodedField carrying a matching entry's caption, its numeric code as value, and
the field's mask. -/
theorem parse_fuse_enum_match (b : Nat) (t1 t2 : FieldTable) (name : String)
    (fs : FieldSpec) (tz : Nat)
    (hwf : WF (t1 ++ (name, fs) :: t2))
    (hnd : (tableNames (t1 ++ (name, fs) :: t2)).Nodup)
    (hm : fs.mask ≠ 0)
    (htz : count_trailing_zero fs.mask fs.mask = some tz)
    (hcode : ∃ e ∈ fs.values, e.value = (b &&& fs.mask) >>> tz) :
    ∃ o w e, parse_fuse (t1 ++ (name, fs) :: t2) b = some (o, w) ∧
      e ∈ fs.values ∧ e.value = (b &&& fs.mask) >>> tz ∧
      lookupField name o = some ⟨fs.caption, e.caption, e.value, fs.mask⟩ := by
  obtain ⟨e, hfind, hmem, hval⟩ := findValue_exists _ fs.values hcode
  have hlen : 0 < fs.values.length :=
    List.length_pos.mpr fun hnil => absurd (hnil ▸ hmem) (List.not_mem_nil e)
  have hstep : parseFuseStep b name fs =
      some (some ⟨fs.caption, e.caption, e.value, fs.mask⟩, none) := by
    rw [parseFuseStep, if_pos hlen]
    simp only [htz, hfind]
  obtain ⟨hwf1, hwf2⟩ := wf_split t1 t2 (name, fs) hwf
  obtain ⟨o1, w1, h1⟩ := parse_fuse_eq_some t1 b hwf1
  obtain ⟨o2, w2, h2⟩ := parse_fuse_eq_some t2 b hwf2
  obtain ⟨hn1, hn2⟩ := nodup_split_not_mem t1 t2 name fs hnd
  have hmain := parse_fuse_split b t1 t2 name fs o1 o2 w1 w2 _ _ h1 h2 hstep
  refine ⟨_, _, e, hmain, hmem, hval, ?_⟩
  have hskip : ∀ p ∈ o1, p.1 ≠ name := fun p hp heq =>
    hn1 (heq ▸ parse_fuse_keys t1 b o1 w1 h1 p hp)
  rw [lookupField_skip name o1 _ hskip]
  show lookupField name ((name, _) :: o2) = _
  rw [lookupField, if_pos rfl]

/-- C2: for every raw byte `b` and every non-enumerated (single-bit-convention)
FieldSpec with mask `m`, the field is always present in the result, with
value 1 / caption "Unprogrammed" exactly when `b &&& m = m` and otherwise
value 0 / caption "Programmed". -/
theorem parse_fuse_single_bit (b : Nat) (t1 t2 : FieldTable) (name : String)
    (fs : FieldSpec)
    (hv : fs.values = [])
    (hwf : WF (t1 ++ (name, fs) :: t2))
    (hnd : (tableNames (t1 ++ (name, fs) :: t2)).Nodup) :
    ∃ o w, parse_fuse (t1 ++ (name, fs) :: t2) b = some (o, w) ∧
      lookupField name o =
        some (if b &&& fs.mask = fs.mask
              then ⟨fs.caption, "Unprogrammed", 1, fs.mask⟩
              else ⟨fs.caption, "Programmed", 0, fs.mask⟩) := by
  have hstep : parseFuseStep b name fs =
      some (some (if b &&& fs.mask = fs.mask
                  then ⟨fs.caption, "Unprogrammed", 1, fs.mask⟩
                  else ⟨fs.caption, "Programmed", 0, fs.mask⟩), none) := by
    rw [parseFuseStep, if_neg (by rw [hv]; simp), and_mask_twice]
    by_cases h : b &&& fs.mask = fs.mask
    · rw [if_pos h, if_pos h]
    · rw [if_neg h, if_neg h]
  obtain ⟨hwf1, hwf2⟩ := wf_split t1 t2 (name, fs) hwf
  obtain ⟨o1, w1, h1⟩ := parse_fuse_eq_some t1 b hwf1
  obtain ⟨o2, w2, h2⟩ := parse_fuse_eq_some t2 b hwf2
  obtain ⟨hn1, hn2⟩ := nodup_split_not_mem t1 t2 name fs hnd
  have hmain := parse_fuse_split b t1 t2 name fs o1 o2 w1 w2 _ _ h1 h2 hstep
  refine ⟨_, _, hmain, ?_⟩
  have hskip : ∀ p ∈ o1, p.1 ≠ name := fun p hp heq =>
    hn1 (heq ▸ parse_fuse_keys t1 b o1 w1 h1 p hp)
  rw [lookupField_skip name o1 _ hskip]
  show lookupField name ((name, _) :: o2) = _
  rw [lookupField, if_pos rfl]

/-- C3: for every raw byte `b` and every enumerated FieldSpec whose declared codes
do not contain `(b &&& mask) >>> count_trailing_zero mask`, `parse_fuse` omits that
field from the result, logs exactly one warning naming the field and the unmatched
code, does not fail, and processes all other fields of the table normally. -/
theorem parse_fuse_enum_unmatched (b : Nat) (t1 t2 : FieldTable) (name : String)
    (fs : FieldSpec) (tz : Nat)
    (hv : fs.values ≠ [])
    (hm : fs.mask ≠ 0)
    (htz : count_trailing_zero fs.mask fs.mask = some tz)
    (hnomatch : ∀ e ∈ fs.values, e.value ≠ (b &&& fs.mask) >>> tz)
    (hwf : WF (t1 ++ (name, fs) :: t2))
    (hnd : (tableNames (t1 ++ (name, fs) :: t2)).Nodup) :
    ∃ o1 w1 o2 w2, parse_fuse t1 b = some (o1, w1) ∧ parse_fuse t2 b = some (o2, w2) ∧
      parse_fuse (t1 ++ (name, fs) :: t2) b =
        some (o1 ++ o2,
          w1 ++ ("Invalid value for " ++ name ++ " ==> got: " ++
            pyHex ((b &&& fs.mask) >>> tz)) :: w2) ∧
      lookupField name (o1 ++ o2) = none := by
  have hlen : 0 < fs.values.length := List.length_pos.mpr hv
  have hfind : findValue ((b &&& fs.mask) >>> tz) fs.values = none :=
    findValue_none _ fs.values hnomatch
  have hstep : parseFuseStep b name fs =
      some (none, some ("Invalid value for " ++ name ++ " ==> got: " ++
        pyHex ((b &&& fs.mask) >>> tz))) := by
    rw [parseFuseStep, if_pos hlen]
    simp only [htz, hfind]
  obtain ⟨hwf1, hwf2⟩ := wf_split t1 t2 (name, fs) hwf
  obtain ⟨o1, w1, h1⟩ := parse_fuse_eq_some t1 b hwf1
  obtain ⟨o2, w2, h2⟩ := parse_fuse_eq_some t2 b hwf2
  obtain ⟨hn1, hn2⟩ := nodup_split_not_mem t1 t2 name fs hnd
  have hmain := parse_fuse_split b t1 t2 name fs o1 o2 w1 w2 _ _ h1 h2 hstep
  simp only [Option.toList_none, Option.toList_some, List.map_nil, List.nil_append,
    List.singleton_append] at hmain
  refine ⟨o1, w1, o2, w2, h1, h2, hmain, ?_⟩
  have hskip : ∀ p ∈ o1, p.1 ≠ name := fun p hp heq =>
    hn1 (heq ▸ parse_fuse_keys t1 b o1 w1 h1 p hp)
  rw [lookupField_skip name o1 _ hskip]
  exact lookupField_none name o2 fun p hp heq =>
    hn2 (heq ▸ parse_fuse_keys t2 b o2 w2 h2 p hp)

/-- C4 counterexample: a table whose only FieldSpec has mask 0 and is
non-enumerated does not make `parse_fuse` fail at all: it returns normally and
emits a DecodedField for that very field, contradicting fail-fast-before-any-output. -/
theorem parse_fuse_zero_mask_cex :
    parse_fuse [("LB", ⟨0, "Lock bits", []⟩)] 0 =
      some ([("LB", ⟨"Lock bits", "Unprogrammed", 1, 0⟩)], []) := by
  rfl

/-- C4 (amended): `parse_fuse` does not fail fast on a zero mask.  A
non-enumerated zero-mask field is silently decoded (see the counterexample and C5);
only an *enumerated* zero-mask field stops the call, and it does so by never
returning (the `count_trailing_zero` loop does not terminate, modelled as `none`),
after the fields before it have already been processed — not by surfacing a
configuration error before processing any field. -/
theorem parse_fuse_enum_zero_mask (b : Nat) (t1 t2 : FieldTable) (name : String)
    (fs : FieldSpec) (hv : fs.values ≠ []) (hm : fs.mask = 0) :
    parse_fuse (t1 ++ (name, fs) :: t2) b = none := by
  have hstep : parseFuseStep b name fs = none := by
    rw [parseFuseStep, if_pos (List.length_pos.mpr hv), hm, count_trailing_zero_zero]
  induction t1 with
  | nil =>
    rw [List.nil_append, parse_fuse]
    simp only [hstep]
  | cons hd tl ih =>
    obtain ⟨n2, f2⟩ := hd
    rw [List.cons_append, parse_fuse, ih]
    cases parseFuseStep b n2 f2 with
    | none => rfl
    | some pr => obtain ⟨odf, ow⟩ := pr; rfl

/-- C5: a non-enumerated FieldSpec with mask 0 is decoded without any failure:
since `b &&& 0 = 0 = mask`, the field is emitted with value 1 / "Unprogrammed"
and processing continues with the rest of the table unchanged. -/
theorem parse_fuse_nonenum_zero_mask (b : Nat) (name cap : String) (rest : FieldTable) :
    parse_fuse ((name, ⟨0, cap, []⟩) :: rest) b =
      (parse_fuse rest b).map fun pr =>
        ((name, ⟨cap, "Unprogrammed", 1, 0⟩) :: pr.1, pr.2) := by
  have hstep : parseFuseStep b name ⟨0, cap, []⟩ =
      some (some ⟨cap, "Unprogrammed", 1, 0⟩, none) := by
    rw [parseFuseStep]
    simp [Nat.and_zero]
  rw [parse_fuse]
  simp only [hstep]
  cases parse_fuse rest b with
  | none => rfl
  | some pr => obtain ⟨o, w⟩ := pr; simp

/-- C6: `count_trailing_zero` (at the fuel used by its call sites) returns the
number of contiguous low-order zero bits: 0..7 for the single-bit masks
0x01, 0x02, 0x04, 0x08, 0x10, 0x20, 0x40, 0x80, and 1 for mask 0x06. -/
theorem count_trailing_zero_single_bits :
    count_trailing_zero 1 1 = some 0 ∧ count_trailing_zero 2 2 = some 1 ∧
    count_trailing_zero 4 4 = some 2 ∧ count_trailing_zero 8 8 = some 3 ∧
    count_trailing_zero 16 16 = some 4 ∧ count_trailing_zero 32 32 = some 5 ∧
    count_trailing_zero 64 64 = some 6 ∧ count_trailing_zero 128 128 = some 7 ∧
    count_trailing_zero 6 6 = some 1 := by
  decide

/-- C7: the `count_trailing_zero` loop terminates for every non-zero input `x`,
reaching a set bit within any fuel bound covering the bit length of `x`
(`x < 2 ^ fuel`); input 0 is excluded by precondition. -/
theorem count_trailing_zero_terminates (x fuel : Nat) (hx : x ≠ 0)
    (hfuel : x < 2 ^ fuel) : ∃ c, count_trailing_zero fuel x = some c := by
  have hs := count_trailing_zero_isSome fuel x hx hfuel
  cases h : count_trailing_zero fuel x with
  | none => rw [h] at hs; exact absurd hs (by simp)
  | some c => exact ⟨c, rfl⟩

/-- C8: when an enumerated FieldSpec declares duplicate numeric codes and the
extracted code matches them, `parse_fuse` emits the first matching entry in
declared order — silently: no warning is logged and no error occurs. -/
theorem parse_fuse_duplicate_first_wins (b : Nat) (t1 t2 : FieldTable) (name : String)
    (fs : FieldSpec) (tz : Nat) (pre post : List EnumEntry) (e : EnumEntry)
    (hwf : WF (t1 ++ (name, fs) :: t2))
    (hnd : (tableNames (t1 ++ (name, fs) :: t2)).Nodup)
    (htz : count_trailing_zero fs.mask fs.mask = some tz)
    (hvals : fs.values = pre ++ e :: post)
    (hpre : ∀ e2 ∈ pre, e2.value ≠ (b &&& fs.mask) >>> tz)
    (he : e.value = (b &&& fs.mask) >>> tz)
    (hdup : ∃ e2 ∈ post, e2.value = (b &&& fs.mask) >>> tz) :
    ∃ o1 w1 o2 w2, parse_fuse t1 b = some (o1, w1) ∧ parse_fuse t2 b = some (o2, w2) ∧
      parse_fuse (t1 ++ (name, fs) :: t2) b =
        some (o1 ++ (name, ⟨fs.caption, e.caption, e.value, fs.mask⟩) :: o2, w1 ++ w2) ∧
      lookupField name (o1 ++ (name, ⟨fs.caption, e.caption, e.value, fs.mask⟩) :: o2) =
        some ⟨fs.caption, e.caption, e.value, fs.mask⟩ := by
  have hlen : 0 < fs.values.length := by
    rw [hvals, List.length_append, List.length_cons]
    omega
  have hfind : findValue ((b &&& fs.mask) >>> tz) fs.values = some e := by
    rw [hvals]
    exact findValue_first _ pre post e hpre he
  have hstep : parseFuseStep b name fs =
      some (some ⟨fs.caption, e.caption, e.value, fs.mask⟩, none) := by
    rw [parseFuseStep, if_pos hlen]
    simp only [htz, hfind]
  obtain ⟨hwf1, hwf2⟩ := wf_split t1 t2 (name, fs) hwf
  obtain ⟨o1, w1, h1⟩ := parse_fuse_eq_some t1 b hwf1
  obtain ⟨o2, w2, h2⟩ := parse_fuse_eq_some t2 b hwf2
  obtain ⟨hn1, hn2⟩ := nodup_split_not_mem t1 t2 name fs hnd
  have hmain := parse_fuse_split b t1 t2 name fs o1 o2 w1 w2 _ _ h1 h2 hstep
  simp only [Option.toList_some, Option.toList_none, List.map_cons, List.map_nil,
    List.nil_append, List.singleton_append] at hmain
  have hskip : ∀ p ∈ o1, p.1 ≠ name := fun p hp heq =>
    hn1 (heq ▸ parse_fuse_keys t1 b o1 w1 h1 p hp)
  refine ⟨o1, w1, o2, w2, h1, h2, hmain, ?_⟩
  rw [lookupField_skip name o1 _ hskip, lookupField, if_pos rfl]

/-- C9: decoding is deterministic — `parse_fuse` depends only on its two
arguments, so any two results of the same (table, byte) pair are identical in
keys, contents, order, and warnings. -/
theorem parse_fuse_deterministic (t : FieldTable) (b : Nat)
    (r1 r2 : Option (List (String × DecodedField) × List String))
    (h1 : parse_fuse t b = r1) (h2 : parse_fuse t b = r2) : r1 = r2 :=
  h1.symm.trans h2

/-! ### SPI command traffic of `read_fuses` / `read_lockbits` -/

/-- One SPI transaction of the transport collaborator, as observed on the bus. -/
inductive SpiEvent where
  | transmit (data : List Nat)
  | receive (count : Nat)
  deriving DecidableEq, Repr

/-- The four field groups of a device entry, as consumed by
`read_fuses` (`device["fuse_low"]`, ...) and `read_lockbits` (`device["lock_bits"]`). -/
structure Device where
  fuse_low : FieldTable
  fuse_high : FieldTable
  fuse_extended : FieldTable
  lock_bits : FieldTable
  deriving DecidableEq, Repr

def read_low_fuse : List Nat := [0x50, 0x00, 0x00]

def read_high_fuse : List Nat := [0x58, 0x08, 0x00]

def read_extended_fuse : List Nat := [0x50, 0x08, 0x00]

def read_lockbits_cmd : List Nat := [0x58, 0x00, 0x00]

/-- One `if len(table) > 0: transmit(cmd); byte = receive(1)[0]; print(parse_fuse(...))`
block: the SPI events it performs, and whether it runs to completion (`false` when
the embedded `parse_fuse` call never returns). -/
def fuse_group_trace (table : FieldTable) (cmd : List Nat) (resp : Nat) :
    List SpiEvent × Bool :=
  if 0 < table.length then
    ([SpiEvent.transmit cmd, SpiEvent.receive 1], (parse_fuse table resp).isSome)
  else ([], true)

/-- `ReadFuses.read_fuses`: the three fuse groups in program order, each group's
response byte supplied by the oracle arguments; a group whose decode never returns
stops the remaining groups. -/
def read_fuses_trace (d : Device) (rl rh re : Nat) : List SpiEvent × Bool :=
  match fuse_group_trace d.fuse_low read_low_fuse rl with
  | (e1, false) => (e1, false)
  | (e1, true) =>
    match fuse_group_trace d.fuse_high read_high_fuse rh with
    | (e2, false) => (e1 ++ e2, false)
    | (e2, true) =>
      match fuse_group_trace d.fuse_extended read_extended_fuse re with
      | (e3, done) => (e1 ++ e2 ++ e3, done)

/-- `ReadFuses.read_lockbits`: the lock-bits group. -/
def read_lockbits_trace (d : Device) (rb : Nat) : List SpiEvent × Bool :=
  fuse_group_trace d.lock_bits read_lockbits_cmd rb

theorem fuse_group_trace_wf (table : FieldTable) (cmd : List Nat) (resp : Nat)
    (hwf : WF table) :
    fuse_group_trace table cmd resp =
      ((if 0 < table.length then [SpiEvent.transmit cmd, SpiEvent.receive 1] else []),
       true) := by
  rw [fuse_group_trace]
  by_cases h : 0 < table.length
  · rw [if_pos h, if_pos h, parse_fuse_isSome table resp hwf]
  · rw [if_neg h, if_neg h]

/-- C10: for each field group the program transmits exactly its fixed 3-byte
command — `50 00 00` (low fuse), `58 08 00` (high fuse), `50 08 00` (extended
fuse), `58 00 00` (lock bits) — receives exactly one response byte per command,
and transmits a group's command only when that group's table is non-empty. -/
theorem read_commands_fixed (d : Device) (rl rh re rb : Nat)
    (h1 : WF d.fuse_low) (h2 : WF d.fuse_high) (h3 : WF d.fuse_extended)
    (h4 : WF d.lock_bits) :
    read_fuses_trace d rl rh re =
      ((if 0 < d.fuse_low.length
        then [SpiEvent.transmit [0x50, 0x00, 0x00], SpiEvent.receive 1] else []) ++
       (if 0 < d.fuse_high.length
        then [SpiEvent.transmit [0x58, 0x08, 0x00], SpiEvent.receive 1] else []) ++
       (if 0 < d.fuse_extended.length
        then [SpiEvent.transmit [0x50, 0x08, 0x00], SpiEvent.receive 1] else []),
       true) ∧
    read_lockbits_trace d rb =
      ((if 0 < d.lock_bits.length
        then [SpiEvent.transmit [0x58, 0x00, 0x00], SpiEvent.receive 1] else []),
       true) := by
  constructor
  · rw [read_fuses_trace, fuse_group_trace_wf d.fuse_low read_low_fuse rl h1,
      fuse_group_trace_wf d.fuse_high read_high_fuse rh h2,
      fuse_group_trace_wf d.fuse_extended read_extended_fuse re h3]
    rfl
  · rw [read_lockbits_trace, fuse_group_trace_wf d.lock_bits read_lockbits_cmd rb h4]
    rfl

/-! ### Concrete witnesses -/

theorem parse_fuse_enum_match_witness :
    ∃ o w e,
      parse_fuse [("SUT_CKSEL", ⟨15, "Clock select", [⟨2, "Ext Osc"⟩, ⟨4, "Int RC"⟩]⟩)] 2 =
        some (o, w) ∧
      e ∈ [(⟨2, "Ext Osc"⟩ : EnumEntry), ⟨4, "Int RC"⟩] ∧
      e.value = (2 &&& 15) >>> 0 ∧
      lookupField "SUT_CKSEL" o = some ⟨"Clock select", e.caption, e.value, 15⟩ :=
  parse_fuse_enum_match 2 [] [] "SUT_CKSEL"
    ⟨15, "Clock select", [⟨2, "Ext Osc"⟩, ⟨4, "Int RC"⟩]⟩ 0
    (by decide) (by decide) (by decide) (by decide) (by decide)

theorem parse_fuse_single_bit_witness :
    ∃ o w,
      parse_fuse [("LOCK1", ⟨1, "Lock bit 1", []⟩), ("LOCK2", ⟨2, "Lock bit 2", []⟩)] 255 =
        some (o, w) ∧
      lookupField "LOCK2" o =
        some (if 255 &&& 2 = 2
              then ⟨"Lock bit 2", "Unprogrammed", 1, 2⟩
              else ⟨"Lock bit 2", "Programmed", 0, 2⟩) :=
  parse_fuse_single_bit 255 [("LOCK1", ⟨1, "Lock bit 1", []⟩)] [] "LOCK2"
    ⟨2, "Lock bit 2", []⟩ (by decide) (by decide) (by decide)

theorem parse_fuse_enum_unmatched_witness :
    ∃ o1 w1 o2 w2,
      parse_fuse [] 15 = some (o1, w1) ∧ parse_fuse [] 15 = some (o2, w2) ∧
      parse_fuse [("SUT_CKSEL", ⟨15, "Clock select", [⟨2, "Ext Osc"⟩, ⟨4, "Int RC"⟩]⟩)] 15 =
        some (o1 ++ o2,
          w1 ++ ("Invalid value for " ++ "SUT_CKSEL" ++ " ==> got: " ++
            pyHex ((15 &&& 15) >>> 0)) :: w2) ∧
      lookupField "SUT_CKSEL" (o1 ++ o2) = none :=
  parse_fuse_enum_unmatched 15 [] [] "SUT_CKSEL"
    ⟨15, "Clock select", [⟨2, "Ext Osc"⟩, ⟨4, "Int RC"⟩]⟩ 0
    (by decide) (by decide) (by decide) (by decide) (by decide) (by decide)

theorem parse_fuse_enum_zero_mask_witness :
    parse_fuse [("OK", ⟨1, "ok field", []⟩), ("BAD", ⟨0, "bad field", [⟨0, "zero"⟩]⟩)] 5 =
      none :=
  parse_fuse_enum_zero_mask 5 [("OK", ⟨1, "ok field", []⟩)] [] "BAD"
    ⟨0, "bad field", [⟨0, "zero"⟩]⟩ (by decide) (by decide)

theorem count_trailing_zero_terminates_witness :
    ∃ c, count_trailing_zero 3 6 = some c :=
  count_trailing_zero_terminates 6 3 (by decide) (by decide)

theorem parse_fuse_duplicate_first_wins_witness :
    ∃ o1 w1 o2 w2,
      parse_fuse [] 1 = some (o1, w1) ∧ parse_fuse [] 1 = some (o2, w2) ∧
      parse_fuse [("DUP", ⟨3, "Dup field", [⟨1, "first"⟩, ⟨1, "second"⟩]⟩)] 1 =
        some (o1 ++ ("DUP", ⟨"Dup field", "first", 1, 3⟩) :: o2, w1 ++ w2) ∧
      lookupField "DUP" (o1 ++ ("DUP", ⟨"Dup field", "first", 1, 3⟩) :: o2) =
        some ⟨"Dup field", "first", 1, 3⟩ :=
  parse_fuse_duplicate_first_wins 1 [] [] "DUP"
    ⟨3, "Dup field", [⟨1, "first"⟩, ⟨1, "second"⟩]⟩ 0 [] [⟨1, "second"⟩] ⟨1, "first"⟩
    (by decide) (by decide) (by decide) (by decide) (by decide) (by decide) (by decide)

theorem parse_fuse_deterministic_witness :
    (some ([("LOCK1", ⟨"Lock bit 1", "Programmed", 0, 1⟩)], []) :
      Option (List (String × DecodedField) × List String)) =
    some ([("LOCK1", ⟨"Lock bit 1", "Programmed", 0, 1⟩)], []) :=
  parse_fuse_deterministic [("LOCK1", ⟨1, "Lock bit 1", []⟩)] 0 _ _ rfl rfl

theorem read_commands_fixed_witness :
    read_fuses_trace ⟨[("A", ⟨1, "a", []⟩)], [], [("B", ⟨2, "b", []⟩)], [("L", ⟨3, "l", []⟩)]⟩
        0 0 0 =
      ((if 0 < ([("A", ⟨1, "a", []⟩)] : FieldTable).length
        then [SpiEvent.transmit [0x50, 0x00, 0x00], SpiEvent.receive 1] else []) ++
       (if 0 < ([] : FieldTable).length
        then [SpiEvent.transmit [0x58, 0x08, 0x00], SpiEvent.receive 1] else []) ++
       (if 0 < ([("B", ⟨2, "b", []⟩)] : FieldTable).length
        then [SpiEvent.transmit [0x50, 0x08, 0x00], SpiEvent.receive 1] else []),
       true) ∧
    read_lockbits_trace
        ⟨[("A", ⟨1, "a", []⟩)], [], [("B", ⟨2, "b", []⟩)], [("L", ⟨3, "l", []⟩)]⟩ 0 =
      ((if 0 < ([("L", ⟨3, "l", []⟩)] : FieldTable).length
        then [SpiEvent.transmit [0x58, 0x00, 0x00], SpiEvent.receive 1] else []),
       true) :=
  read_commands_fixed ⟨[("A", ⟨1, "a", []⟩)], [], [("B", ⟨2, "b", []⟩)], [("L", ⟨3, "l", []⟩)]⟩
    0 0 0 0 (by decide) (by decide) (by decide) (by decide)
